/-
Verification of the backup-lifecycle logic of `bakthat` (bakthat/__init__.py):
the archive-key codec (`match_filename` and the naming format used by `backup`),
the interval parser (`_interval_string_to_seconds`), listing/ordering
(`_match_filename`), `delete_older_than`, the target selection of `restore` and
`delete`, the temporary-file behaviour of `backup`, and a model of the Glacier
inventory checkpointing (`backup_glacier_inventory` / `restore_glacier_inventory`).

Strings are embedded as `List Char` (Python byte strings over ASCII);
timestamps as an explicit `DateTime` structure at second precision.
-/
import Mathlib

namespace Bakthat

/-- Abbreviation for the embedding of Python strings. -/
abbrev Str := List Char

/-! ## Interval parser: `_interval_string_to_seconds`

Python source:
```
interval_dict = {"s": 1, "m": 60, "h": 3600, "D": 86400,
                 "W": 7*86400, "M": 30*86400, "Y": 365*86400}
interval_regex = re.compile("^(?P<num>[0-9]+)(?P<ext>[smhDWMY])")
seconds = 0
while interval_string:
    match = interval_regex.match(interval_string)
    if match:
        num, ext = int(match.group("num")), match.group("ext")
        if num > 0 and ext in interval_dict:
            seconds += num * interval_dict[ext]
            interval_string = interval_string[match.end():]
        else:
            raise Exception(interval_exc)
    else:
        raise Exception(interval_exc)
return seconds
```
A raised exception is embedded as `none`. -/

/-- Numeric value of a digit list, as Python `int()` of a digit string. -/
def toNatDigits (ds : Str) : Nat :=
  ds.foldl (fun a c => a * 10 + (c.toNat - 48)) 0

/-- The unit table `interval_dict`, keyed by the unit character
(`[smhDWMY]` in the regex). -/
def unitSeconds : Char → Option Nat
  | 's' => some 1
  | 'm' => some 60
  | 'h' => some 3600
  | 'D' => some 86400
  | 'W' => some (7 * 86400)
  | 'M' => some (30 * 86400)
  | 'Y' => some (365 * 86400)
  | _ => none

/-- The `while interval_string:` loop, with a fuel parameter so the
recursion is structural (each iteration consumes at least two characters,
so `fuel = s.length` always suffices; the `fuel = 0` branch is
unreachable from `intervalStringToSeconds`). -/
def intervalLoop : Nat → Str → Option Nat
  | _, [] => some 0
  | 0, _ :: _ => none
  | fuel + 1, c :: cs =>
    let ds := (c :: cs).takeWhile Char.isDigit
    if ds = [] then none
    else
      match (c :: cs).dropWhile Char.isDigit with
      | [] => none
      | u :: rest =>
        match unitSeconds u with
        | none => none
        | some w =>
          let num := toNatDigits ds
          if num > 0 then
            (intervalLoop fuel rest).map (fun r => num * w + r)
          else none

/-- `_interval_string_to_seconds`.  The loop consumes one `<digits><unit>`
token per iteration; any failure to match (no leading digits, no unit
character after the digits, or a zero count) raises, embedded as `none`. -/
def intervalStringToSeconds (s : Str) : Option Nat :=
  intervalLoop s.length s

/-! ## Archive key codec

`backup` names its stored object
`"{0}.{1}.tgz".format(arcname, now.strftime("%Y%m%d%H%M%S"))`, appending
`".enc"` when encrypting.  `match_filename` parses a key with
`re.match` against
`(?P<backup_name>.+)\.(?P<date_component>\d{14})\.tgz(?P<is_enc>\.enc)?`
and, on failure, against the legacy pattern
`(?P<backup_name>.+)(?P<date_component>\d{14})\.tgz(?P<is_enc>\.enc)?`,
then parses the date component with
`datetime.strptime(..., "%Y%m%d%H%M%S")`. -/

/-- A second-precision timestamp, as the fields of a Python `datetime`. -/
structure DateTime where
  year : Nat
  month : Nat
  day : Nat
  hour : Nat
  minute : Nat
  second : Nat
deriving DecidableEq, Repr

def isLeap (y : Nat) : Bool := y % 4 == 0 && (y % 100 != 0 || y % 400 == 0)

def daysInMonth (y m : Nat) : Nat :=
  if m = 2 then (if isLeap y then 29 else 28)
  else if m = 4 ∨ m = 6 ∨ m = 9 ∨ m = 11 then 30
  else 31

/-- A datetime acceptable to Python 2's `datetime` and formattable by its
`strftime` (which requires `year ≥ 1900`; `datetime.MAXYEAR = 9999`). -/
def ValidDT (t : DateTime) : Prop :=
  1900 ≤ t.year ∧ t.year ≤ 9999 ∧ 1 ≤ t.month ∧ t.month ≤ 12 ∧
    1 ≤ t.day ∧ t.day ≤ daysInMonth t.year t.month ∧
    t.hour ≤ 23 ∧ t.minute ≤ 59 ∧ t.second ≤ 59

instance : DecidablePred ValidDT := fun t => by unfold ValidDT; infer_instance

/-- The ASCII digit character for `d ≤ 9`. -/
def dchar (d : Nat) : Char := Char.ofNat (48 + d)

/-- Two-digit zero-padded decimal (`%m`, `%d`, `%H`, `%M`, `%S`). -/
def pad2 (n : Nat) : Str := [dchar (n / 10), dchar (n % 10)]

/-- Four-digit zero-padded decimal (`%Y`). -/
def pad4 (n : Nat) : Str := pad2 (n / 100) ++ pad2 (n % 100)

/-- `t.strftime("%Y%m%d%H%M%S")`. -/
def format14 (t : DateTime) : Str :=
  pad4 t.year ++ pad2 t.month ++ pad2 t.day ++ pad2 t.hour
    ++ pad2 t.minute ++ pad2 t.second

/-- `datetime.strptime(s, "%Y%m%d%H%M%S")` on the regex-captured date
component (always 14 digits).  Full consumption of 14 digits forces each
of `%m %d %H %M %S` to take two digits; `_strptime`'s component patterns
bound them (month 01–12, day 01–31, hour 00–23, minute 00–59, second
00–61), and the `datetime` constructor then additionally requires
`year ≥ 1`, a real calendar day, and `second ≤ 59`.  `none` embeds the
raised `ValueError` (which `match_filename` does not catch). -/
def strptime14 (s : Str) : Option DateTime :=
  if s.length = 14 ∧ s.all Char.isDigit then
    let y := toNatDigits (s.take 4)
    let mo := toNatDigits ((s.drop 4).take 2)
    let d := toNatDigits ((s.drop 6).take 2)
    let h := toNatDigits ((s.drop 8).take 2)
    let mi := toNatDigits ((s.drop 10).take 2)
    let sec := toNatDigits ((s.drop 12).take 2)
    if 1 ≤ mo ∧ mo ≤ 12 ∧ 1 ≤ d ∧ d ≤ 31 ∧ h ≤ 23 ∧ mi ≤ 59 ∧ sec ≤ 61 then
      if 1 ≤ y ∧ d ≤ daysInMonth y mo ∧ sec ≤ 59 then
        some ⟨y, mo, d, h, mi, sec⟩
      else none
    else none
  else none

/-- After the greedy `(.+)` group: `\d{14}\.tgz(\.enc)?`, unanchored at
the right (`re.match` ignores anything after the match).  Returns the
date component and the `is_enc` flag. -/
def matchDigitsTail (s : Str) : Option (Str × Bool) :=
  let ds := s.take 14
  if ds.length = 14 ∧ ds.all Char.isDigit then
    if (s.drop 14).take 4 = ".tgz".toList then
      some (ds, ((s.drop 14).drop 4).take 4 == ".enc".toList)
    else none
  else none

/-- After the greedy `(.+)` group of the current pattern:
`\.(\d{14})\.tgz(\.enc)?`. -/
def matchTail : Str → Option (Str × Bool)
  | [] => none
  | c :: rest => if c = '.' then matchDigitsTail rest else none

/-- `[n, n-1, ..., 1]`: the candidate lengths of the greedy group `(.+)`,
longest first (the regex engine backtracks one character at a time). -/
def downFrom : Nat → List Nat
  | 0 => []
  | n + 1 => (n + 1) :: downFrom n

/-- First `some` in a list of candidates. -/
def firstSome {α : Type} (f : Nat → Option α) : List Nat → Option α
  | [] => none
  | i :: is =>
    match f i with
    | some r => some r
    | none => firstSome f is

/-- `re.match` of the current-format pattern
`(?P<backup_name>.+)\.(?P<date_component>\d{14})\.tgz(?P<is_enc>\.enc)?`:
`.+` greedily takes the longest newline-free nonempty prefix that leaves
a matching tail.  Returns `(backup_name, date_component, is_enc)`. -/
def matchCurrent (s : Str) : Option (Str × Str × Bool) :=
  firstSome
    (fun i =>
      if '\n' ∈ s.take i then none
      else (matchTail (s.drop i)).map (fun de => (s.take i, de.1, de.2)))
    (downFrom s.length)

/-- `re.match` of the legacy pattern
`(?P<backup_name>.+)(?P<date_component>\d{14})\.tgz(?P<is_enc>\.enc)?`
(no dot between name and date component). -/
def matchLegacy (s : Str) : Option (Str × Str × Bool) :=
  firstSome
    (fun i =>
      if '\n' ∈ s.take i then none
      else (matchDigitsTail (s.drop i)).map (fun de => (s.take i, de.1, de.2)))
    (downFrom s.length)

/-- The per-key decoding step of `match_filename`: the current-format
pattern first, the legacy pattern only if it fails. -/
def decodeKey (s : Str) : Option (Str × Str × Bool) :=
  match matchCurrent s with
  | some r => some r
  | none => matchLegacy s

/-- The stored key written by `backup`:
`"{0}.{1}.tgz".format(name, date_component)`, plus `".enc"` when
encrypted. -/
def encodeKey (name : Str) (dc : Str) (enc : Bool) : Str :=
  name ++ '.' :: dc ++ ".tgz".toList ++ (if enc then ".enc".toList else [])

/-! ### Characterization of the greedy regex matches -/

theorem matchTail_nil : matchTail [] = none := rfl

theorem matchTail_cons (c : Char) (r : Str) :
    matchTail (c :: r) = if c = '.' then matchDigitsTail r else none := rfl

theorem matchTail_none_of_digit_head {l : Str} {c : Char}
    (h0 : l[0]? = some c) (hd : c.isDigit = true) : matchTail l = none := by
  match l with
  | [] => rfl
  | a :: r =>
    have ha : a = c := by simpa using h0
    have hd' : a.isDigit = true := by rw [ha]; exact hd
    rw [matchTail_cons]
    have hne : a ≠ '.' := by
      intro h
      rw [h] at hd'
      exact absurd hd' (by decide)
    simp [hne]

theorem matchDigitsTail_short {s : Str} (h : s.length < 14) :
    matchDigitsTail s = none := by
  unfold matchDigitsTail
  have : (s.take 14).length = s.length := by
    simp [List.length_take]
    omega
  simp [this]
  omega

theorem matchDigitsTail_none_of_nondigit {s : Str} {i : Nat} {c : Char}
    (hi : i < 14) (hc : s[i]? = some c) (hd : c.isDigit = false) :
    matchDigitsTail s = none := by
  unfold matchDigitsTail
  have ht : (s.take 14)[i]? = some c := by
    rw [List.getElem?_take_of_lt hi]
    exact hc
  have hmem : c ∈ s.take 14 := List.getElem?_mem ht
  have : ¬ (s.take 14).all Char.isDigit = true := by
    intro hall
    rw [List.all_eq_true] at hall
    have := hall c hmem
    simp [hd] at this
  simp [this]

theorem matchDigitsTail_append {ts : Str} (R : Str)
    (hlen : ts.length = 14) (hdig : ts.all Char.isDigit = true)
    (hR : R.take 4 = ".tgz".toList) :
    matchDigitsTail (ts ++ R)
      = some (ts, (R.drop 4).take 4 == ".enc".toList) := by
  unfold matchDigitsTail
  rw [List.take_left' hlen, List.drop_left' hlen]
  simp [hlen, hdig, hR, List.drop_take]

/-- A boolean certificate that no suffix of `l` (at any depth) matches
the `\.(\d{14})\.tgz(\.enc)?` tail. -/
def noTailMatchAll : Str → Bool
  | [] => (matchTail []).isNone
  | c :: cs => (matchTail (c :: cs)).isNone && noTailMatchAll cs

theorem noTailMatchAll_drop {l : Str} (h : noTailMatchAll l = true) :
    ∀ k, matchTail (l.drop k) = none := by
  induction l with
  | nil =>
    intro k
    simp [List.drop_nil]
    rfl
  | cons c cs ih =>
    intro k
    unfold noTailMatchAll at h
    simp [Bool.and_eq_true, Option.isNone_iff_eq_none] at h
    match k with
    | 0 => exact h.1
    | k' + 1 =>
      rw [List.drop_succ_cons]
      exact ih h.2 k'

theorem firstSome_downFrom {α : Type} (f : Nat → Option α) (n i₀ : Nat) (r : α)
    (h1 : 1 ≤ i₀) (h2 : i₀ ≤ n) (hf : f i₀ = some r)
    (hab : ∀ i, i₀ < i → f i = none) :
    firstSome f (downFrom n) = some r := by
  induction n with
  | zero => omega
  | succ n ih =>
    rw [downFrom, firstSome]
    by_cases h : i₀ = n + 1
    · subst h
      rw [hf]
    · have hn : f (n + 1) = none := hab _ (by omega)
      rw [hn]
      exact ih (by omega)

/-- The current-format pattern on a well-formed dotted key followed by an
inert tail `E`: the greedy `.+` settles on exactly the logical name. -/
theorem matchCurrent_wellformed (X ts E : Str) (hX : X ≠ []) (hnl : '\n' ∉ X)
    (hlen : ts.length = 14) (hdig : ts.all Char.isDigit = true)
    (hE : noTailMatchAll (".tgz".toList ++ E) = true) :
    matchCurrent (X ++ '.' :: (ts ++ (".tgz".toList ++ E)))
      = some (X, ts, E.take 4 == ".enc".toList) := by
  set R : Str := ".tgz".toList ++ E with hRdef
  set s : Str := X ++ '.' :: (ts ++ R) with hsdef
  have hXlen : 1 ≤ X.length := by
    cases X with
    | nil => exact absurd rfl hX
    | cons a l => simp
  have hslen : s.length = X.length + (15 + R.length) := by
    simp [hsdef, List.length_append]
    omega
  unfold matchCurrent
  apply firstSome_downFrom _ _ X.length _ hXlen (by omega)
  · -- the split at |X| succeeds
    have htake : s.take X.length = X := by
      rw [hsdef]; exact List.take_left X _
    have hdrop : s.drop X.length = '.' :: (ts ++ R) := by
      rw [hsdef]; exact List.drop_left X _
    have hR4 : R.take 4 = ".tgz".toList := by
      rw [hRdef]; exact List.take_left' rfl
    have hE4 : R.drop 4 = E := by
      rw [hRdef]; exact List.drop_left' rfl
    rw [htake, hdrop, if_neg hnl, matchTail_cons, if_pos rfl,
      matchDigitsTail_append R hlen hdig hR4, hE4]
    rfl
  · -- every longer split fails
    intro i hi
    have : ∃ j, i = X.length + (j + 1) := ⟨i - X.length - 1, by omega⟩
    obtain ⟨j, rfl⟩ := this
    have hdropi : s.drop (X.length + (j + 1)) = (ts ++ R).drop j := by
      rw [hsdef, List.drop_append]
      rw [List.drop_succ_cons]
    have hnone : matchTail ((ts ++ R).drop j) = none := by
      by_cases hj : j < 14
      · -- inside the 14 digits: the head is a digit, not a dot
        have hjlen : j < ts.length := by omega
        have hel : (ts ++ R)[j]? = ts[j]? := by
          rw [List.getElem?_append]
          simp [hjlen]
        have hget : ts[j]? = some ts[j] := List.getElem?_eq_getElem hjlen
        have hdigc : (ts[j]).isDigit = true := by
          rw [List.all_eq_true] at hdig
          exact hdig _ (List.getElem_mem hjlen)
        apply matchTail_none_of_digit_head (c := ts[j]) _ hdigc
        rw [List.getElem?_drop]
        rw [Nat.add_zero, hel]
        exact hget
      · -- at or past `.tgz[.enc]`: certified inert by `hE`
        have : ∃ k, j = 14 + k := ⟨j - 14, by omega⟩
        obtain ⟨k, rfl⟩ := this
        have : (ts ++ R).drop (14 + k) = R.drop k := by
          rw [← hlen, List.drop_append]
        rw [this]
        exact noTailMatchAll_drop hE k
    rw [hdropi, hnone]
    simp

/-- The legacy pattern on a well-formed undotted key `X ++ ts ++ R`,
for any tail `R` that starts with `.tgz` and has at most 14 characters
(both `.tgz` and `.tgz.enc` qualify): the greedy `.+` settles on
exactly `X`. -/
theorem matchLegacy_wellformed (X ts R : Str) (hX : X ≠ []) (hnl : '\n' ∉ X)
    (hlen : ts.length = 14) (hdig : ts.all Char.isDigit = true)
    (hR4 : R.take 4 = ".tgz".toList) (hRlen : R.length ≤ 14) :
    matchLegacy (X ++ (ts ++ R))
      = some (X, ts, (R.drop 4).take 4 == ".enc".toList) := by
  set s : Str := X ++ (ts ++ R) with hsdef
  have hXlen : 1 ≤ X.length := by
    cases X with
    | nil => exact absurd rfl hX
    | cons a l => simp
  have hslen : s.length = X.length + (14 + R.length) := by
    simp [hsdef, List.length_append, hlen]
  unfold matchLegacy
  apply firstSome_downFrom _ _ X.length _ hXlen (by omega)
  · have htake : s.take X.length = X := by rw [hsdef]; exact List.take_left X _
    have hdrop : s.drop X.length = ts ++ R := by rw [hsdef]; exact List.drop_left X _
    rw [htake, hdrop, if_neg hnl, matchDigitsTail_append R hlen hdig hR4]
    rfl
  · intro i hi
    have : ∃ j, i = X.length + (j + 1) := ⟨i - X.length - 1, by omega⟩
    obtain ⟨j, rfl⟩ := this
    have hdropi : s.drop (X.length + (j + 1)) = (ts ++ R).drop (j + 1) := by
      rw [hsdef, List.drop_append]
    have hnone : matchDigitsTail ((ts ++ R).drop (j + 1)) = none := by
      by_cases hj : j + 1 ≤ 14
      · -- the dot of `.tgz` falls among the first 14 characters
        have hdot : R[0]? = some '.' := by
          have h04 : (R.take 4)[0]? = R[0]? := List.getElem?_take_of_lt (by omega)
          rw [← h04, hR4]
          rfl
        apply matchDigitsTail_none_of_nondigit (i := 14 - (j + 1)) (c := '.')
            (by omega) _ (by decide)
        rw [List.getElem?_drop]
        have harith : j + 1 + (14 - (j + 1)) = 14 := by omega
        rw [harith, ← hlen, List.getElem?_append_right (le_refl _)]
        simpa using hdot
      · have : ∃ k, j + 1 = 14 + (k + 1) := ⟨j - 14, by omega⟩
        obtain ⟨k, hk⟩ := this
        rw [hk]
        have hdk : (ts ++ R).drop (14 + (k + 1)) = R.drop (k + 1) := by
          rw [← hlen, List.drop_append]
        rw [hdk]
        apply matchDigitsTail_short
        have : (R.drop (k + 1)).length = R.length - (k + 1) := by simp
        omega
    rw [hdropi, hnone]
    simp

/-! ### `strftime`/`strptime` facts -/

theorem dchar_isDigit {d : Nat} (h : d ≤ 9) : (dchar d).isDigit = true := by
  have hall : ∀ e, e < 10 → (dchar e).isDigit = true := by decide
  exact hall d (by omega)

theorem dchar_toNat {d : Nat} (h : d ≤ 9) : (dchar d).toNat = 48 + d := by
  have hall : ∀ e, e < 10 → (dchar e).toNat = 48 + e := by decide
  exact hall d (by omega)

theorem format14_length (t : DateTime) : (format14 t).length = 14 := rfl

theorem pad2_all_digits {n : Nat} (h : n ≤ 99) :
    (pad2 n).all Char.isDigit = true := by
  simp [pad2, List.all_cons]
  exact ⟨dchar_isDigit (by omega), dchar_isDigit (by omega)⟩

theorem pad2_length (n : Nat) : (pad2 n).length = 2 := rfl

theorem pad4_length (n : Nat) : (pad4 n).length = 4 := rfl

theorem pad4_all_digits {n : Nat} (h : n ≤ 9999) :
    (pad4 n).all Char.isDigit = true := by
  unfold pad4
  rw [List.all_append, pad2_all_digits (n := n / 100) (by omega),
    pad2_all_digits (n := n % 100) (by omega)]
  rfl

theorem daysInMonth_le_31 (y m : Nat) : daysInMonth y m ≤ 31 := by
  unfold daysInMonth
  split
  · split <;> omega
  · split <;> omega

theorem format14_all_digits {t : DateTime} (h : ValidDT t) :
    (format14 t).all Char.isDigit = true := by
  obtain ⟨hy1, hy2, hm1, hm2, hd1, hd2, hh, hmi, hs⟩ := h
  have hdim := daysInMonth_le_31 t.year t.month
  simp [format14, List.all_append]
  refine ⟨?_, ?_, ?_, ?_, ?_, ?_⟩
  · have := pad4_all_digits (n := t.year) (by omega); simpa using this
  · have := pad2_all_digits (n := t.month) (by omega); simpa using this
  · have := pad2_all_digits (n := t.day) (by omega); simpa using this
  · have := pad2_all_digits (n := t.hour) (by omega); simpa using this
  · have := pad2_all_digits (n := t.minute) (by omega); simpa using this
  · have := pad2_all_digits (n := t.second) (by omega); simpa using this

theorem toNatDigits_pad2_aux {n : Nat} (a : Nat) (h : n ≤ 99) :
    List.foldl (fun a c => a * 10 + (c.toNat - 48)) a (pad2 n)
      = a * 100 + n := by
  simp [pad2, List.foldl]
  rw [dchar_toNat (by omega), dchar_toNat (by omega)]
  omega

theorem toNatDigits_pad2 {n : Nat} (h : n ≤ 99) : toNatDigits (pad2 n) = n := by
  unfold toNatDigits
  rw [toNatDigits_pad2_aux 0 h]
  omega

theorem toNatDigits_pad4 {n : Nat} (h : n ≤ 9999) :
    toNatDigits (pad4 n) = n := by
  unfold toNatDigits pad4
  rw [List.foldl_append]
  rw [toNatDigits_pad2_aux _ (show n % 100 ≤ 99 by omega)]
  rw [toNatDigits_pad2_aux 0 (show n / 100 ≤ 99 by omega)]
  omega

/-- The decomposition of `format14` used by `strptime14`'s fixed-width
field extraction. -/
theorem format14_fields (t : DateTime) (hy : t.year ≤ 9999)
    (hm : t.month ≤ 99) (hd : t.day ≤ 99) (hh : t.hour ≤ 99)
    (hmi : t.minute ≤ 99) (hs : t.second ≤ 99) :
    toNatDigits ((format14 t).take 4) = t.year
      ∧ toNatDigits (((format14 t).drop 4).take 2) = t.month
      ∧ toNatDigits (((format14 t).drop 6).take 2) = t.day
      ∧ toNatDigits (((format14 t).drop 8).take 2) = t.hour
      ∧ toNatDigits (((format14 t).drop 10).take 2) = t.minute
      ∧ toNatDigits (((format14 t).drop 12).take 2) = t.second := by
  have hf : format14 t
      = pad4 t.year ++ (pad2 t.month ++ (pad2 t.day
          ++ (pad2 t.hour ++ (pad2 t.minute ++ pad2 t.second)))) := rfl
  rw [hf]
  have h4 : (pad4 t.year ++ (pad2 t.month ++ (pad2 t.day
        ++ (pad2 t.hour ++ (pad2 t.minute ++ pad2 t.second))))).drop 4
      = pad2 t.month ++ (pad2 t.day
          ++ (pad2 t.hour ++ (pad2 t.minute ++ pad2 t.second))) := by
    rw [← pad4_length t.year]
    exact List.drop_left _ _
  have h6 : (pad4 t.year ++ (pad2 t.month ++ (pad2 t.day
        ++ (pad2 t.hour ++ (pad2 t.minute ++ pad2 t.second))))).drop 6
      = pad2 t.day ++ (pad2 t.hour ++ (pad2 t.minute ++ pad2 t.second)) := by
    rw [show (6 : Nat) = 4 + 2 from rfl, ← List.drop_drop, h4,
      ← pad2_length t.month]
    exact List.drop_left _ _
  have h8 : (pad4 t.year ++ (pad2 t.month ++ (pad2 t.day
        ++ (pad2 t.hour ++ (pad2 t.minute ++ pad2 t.second))))).drop 8
      = pad2 t.hour ++ (pad2 t.minute ++ pad2 t.second) := by
    rw [show (8 : Nat) = 6 + 2 from rfl, ← List.drop_drop, h6,
      ← pad2_length t.day]
    exact List.drop_left _ _
  have h10 : (pad4 t.year ++ (pad2 t.month ++ (pad2 t.day
        ++ (pad2 t.hour ++ (pad2 t.minute ++ pad2 t.second))))).drop 10
      = pad2 t.minute ++ pad2 t.second := by
    rw [show (10 : Nat) = 8 + 2 from rfl, ← List.drop_drop, h8,
      ← pad2_length t.hour]
    exact List.drop_left _ _
  have h12 : (pad4 t.year ++ (pad2 t.month ++ (pad2 t.day
        ++ (pad2 t.hour ++ (pad2 t.minute ++ pad2 t.second))))).drop 12
      = pad2 t.second := by
    rw [show (12 : Nat) = 10 + 2 from rfl, ← List.drop_drop, h10,
      ← pad2_length t.minute]
    exact List.drop_left _ _
  refine ⟨?_, ?_, ?_, ?_, ?_, ?_⟩
  · rw [← pad4_length t.year, List.take_left]
    exact toNatDigits_pad4 hy
  · rw [h4, ← pad2_length t.month, List.take_left]
    exact toNatDigits_pad2 hm
  · rw [h6, ← pad2_length t.day, List.take_left]
    exact toNatDigits_pad2 hd
  · rw [h8, ← pad2_length t.hour, List.take_left]
    exact toNatDigits_pad2 hh
  · rw [h10, ← pad2_length t.minute, List.take_left]
    exact toNatDigits_pad2 hmi
  · rw [h12, ← pad2_length t.second, List.take_length]
    exact toNatDigits_pad2 hs

/-- Formatting a valid datetime and parsing the 14 digits back recovers
the datetime. -/
theorem strptime14_format14 {t : DateTime} (h : ValidDT t) :
    strptime14 (format14 t) = some t := by
  obtain ⟨hy1, hy2, hm1, hm2, hd1, hd2, hh, hmi, hs⟩ := h
  have hdim := daysInMonth_le_31 t.year t.month
  obtain ⟨v1, v2, v3, v4, v5, v6⟩ :=
    format14_fields t (by omega) (by omega) (by omega) (by omega)
      (by omega) (by omega)
  unfold strptime14
  rw [if_pos ⟨format14_length t,
      format14_all_digits ⟨hy1, hy2, hm1, hm2, hd1, hd2, hh, hmi, hs⟩⟩]
  simp only [v1, v2, v3, v4, v5, v6]
  rw [if_pos ⟨hm1, hm2, hd1, by omega, hh, hmi, by omega⟩]
  rw [if_pos ⟨by omega, hd2, hs⟩]

theorem decodeKey_of_current {s : Str} {r : Str × Str × Bool}
    (h : matchCurrent s = some r) : decodeKey s = some r := by
  unfold decodeKey
  rw [h]

theorem decodeKey_of_noCurrent {s : Str} (h : matchCurrent s = none) :
    decodeKey s = matchLegacy s := by
  unfold decodeKey
  rw [h]

example :
    decodeKey "backup.20130606104712.tgz".toList
      = some ("backup".toList, "20130606104712".toList, false) := by decide

/-- The current pattern accepts a well-formed key built by `backup`. -/
theorem matchCurrent_encodeKey (name ts : Str) (enc : Bool)
    (h1 : name ≠ []) (h2 : '\n' ∉ name)
    (hlen : ts.length = 14) (hdig : ts.all Char.isDigit = true) :
    matchCurrent (encodeKey name ts enc) = some (name, ts, enc) := by
  have hkey : encodeKey name ts enc
      = name ++ '.' :: (ts
          ++ (".tgz".toList ++ (if enc then ".enc".toList else []))) := by
    unfold encodeKey
    simp [List.cons_append, List.append_assoc]
  rw [hkey,
    matchCurrent_wellformed name ts _ h1 h2 hlen hdig (by cases enc <;> decide)]
  cases enc <;> rfl

/-- C1 (amended): for every nonempty `logical_name` containing no path
separator and no newline, every valid second-precision timestamp, and
every encrypted flag, decoding the stored key produced by encoding
(formatting `"{logical_name}.{YYYYMMDDHHMMSS}.tgz"` plus `".enc"` when
encrypted, as `backup` does, then parsing it with `match_filename`'s
patterns) yields back exactly the original triple; the 14-digit date
component also parses back to the original timestamp. -/
theorem codec_roundtrip (name : Str) (t : DateTime) (enc : Bool)
    (h1 : name ≠ []) (h2 : '\n' ∉ name) (h3 : '/' ∉ name) (h4 : ValidDT t) :
    decodeKey (encodeKey name (format14 t) enc)
        = some (name, format14 t, enc)
      ∧ strptime14 (format14 t) = some t := by
  refine ⟨?_, strptime14_format14 h4⟩
  exact decodeKey_of_current
    (matchCurrent_encodeKey name (format14 t) enc h1 h2 (format14_length t)
      (format14_all_digits h4))

/-- Witness for `codec_roundtrip` at a concrete instance. -/
theorem codec_roundtrip_witness :
    decodeKey (encodeKey "doc".toList (format14 ⟨2013, 6, 6, 10, 47, 12⟩) true)
        = some ("doc".toList, format14 ⟨2013, 6, 6, 10, 47, 12⟩, true)
      ∧ strptime14 (format14 ⟨2013, 6, 6, 10, 47, 12⟩)
        = some ⟨2013, 6, 6, 10, 47, 12⟩ :=
  codec_roundtrip _ _ _ (by decide) (by decide) (by decide) (by decide)

/-- C1 counterexample: with the empty logical name — which contains no
path separator, so the claim as stated covers it — the stored key
`".20130101000000.tgz"` decodes via the legacy pattern to the name
`"."`, not back to the empty name. -/
theorem codec_roundtrip_counterexample :
    decodeKey (encodeKey [] "20130101000000".toList false)
        = some (['.'], "20130101000000".toList, false)
      ∧ decodeKey (encodeKey [] "20130101000000".toList false)
        ≠ some ([], "20130101000000".toList, false) := by
  exact ⟨by decide, by decide⟩

/-- C5 (amended): a key in the legacy format (no dot between name and
14-digit timestamp) on which the current pattern fails decodes to
exactly the same record as its dotted equivalent, and the current
pattern is always attempted first, the legacy pattern being consulted
only when the current one fails. -/
theorem legacy_fallback (X ts : Str) (enc : Bool)
    (h1 : X ≠ []) (h2 : '\n' ∉ X)
    (hlen : ts.length = 14) (hdig : ts.all Char.isDigit = true)
    (hcur : matchCurrent (X ++ (ts
        ++ (".tgz".toList ++ (if enc then ".enc".toList else [])))) = none) :
    decodeKey (X ++ (ts
          ++ (".tgz".toList ++ (if enc then ".enc".toList else []))))
        = decodeKey (encodeKey X ts enc)
      ∧ decodeKey (X ++ (ts
          ++ (".tgz".toList ++ (if enc then ".enc".toList else []))))
        = some (X, ts, enc)
      ∧ (∀ k r, matchCurrent k = some r → decodeKey k = some r) := by
  have hdotted : decodeKey (encodeKey X ts enc) = some (X, ts, enc) :=
    decodeKey_of_current (matchCurrent_encodeKey X ts enc h1 h2 hlen hdig)
  have hlegacy : decodeKey (X ++ (ts
      ++ (".tgz".toList ++ (if enc then ".enc".toList else []))))
      = some (X, ts, enc) := by
    rw [decodeKey_of_noCurrent hcur,
      matchLegacy_wellformed X ts _ h1 h2 hlen hdig
        (by cases enc <;> decide) (by cases enc <;> decide)]
    cases enc <;> rfl
  refine ⟨by rw [hdotted, hlegacy], hlegacy, ?_⟩
  intro k r h
  exact decodeKey_of_current h

/-- Witness for `legacy_fallback` at a concrete instance. -/
theorem legacy_fallback_witness :
    decodeKey ("data".toList ++ ("20130606104712".toList
          ++ (".tgz".toList ++ (if false then ".enc".toList else []))))
        = decodeKey (encodeKey "data".toList "20130606104712".toList false)
      ∧ decodeKey ("data".toList ++ ("20130606104712".toList
          ++ (".tgz".toList ++ (if false then ".enc".toList else []))))
        = some ("data".toList, "20130606104712".toList, false)
      ∧ (∀ k r, matchCurrent k = some r → decodeKey k = some r) :=
  legacy_fallback "data".toList "20130606104712".toList false
    (by decide) (by decide) (by decide) (by decide) (by decide)

/-- C5 counterexample: the legacy-format key whose name part is
`"a.11111111111111.tgzb"` does not decode like its dotted equivalent:
the current pattern fires on the pattern embedded inside the name, so
the legacy key decodes to name `"a"` with date component
`11111111111111`, while the dotted equivalent decodes to the full name
with date component `20130101000000`. -/
theorem legacy_fallback_counterexample :
    decodeKey "a.11111111111111.tgzb20130101000000.tgz".toList
        = some ("a".toList, "11111111111111".toList, false)
      ∧ decodeKey "a.11111111111111.tgzb.20130101000000.tgz".toList
        = some ("a.11111111111111.tgzb".toList, "20130101000000".toList, false)
      ∧ decodeKey "a.11111111111111.tgzb20130101000000.tgz".toList
        ≠ decodeKey "a.11111111111111.tgzb.20130101000000.tgz".toList := by
  refine ⟨by decide, by decide, by decide⟩

/-! ## Listing: `_match_filename` and `match_filename`

`_match_filename` raises when the filename is blank, keeps the stored
keys that `startswith(filename)`, and sorts them by raw (byte-)string,
descending.  `match_filename` then decodes each key, skipping keys that
match neither regex; a key whose captured date component makes
`datetime.strptime` raise propagates the `ValueError`. -/

/-- Python byte-string `<=`: lexicographic by character code. -/
def keyLe : Str → Str → Bool
  | [], _ => true
  | _ :: _, [] => false
  | a :: as, b :: bs =>
    if a < b then true
    else if b < a then false
    else keyLe as bs

/-- Python byte-string `<`, strict. -/
def keyLt (a b : Str) : Bool := !(keyLe b a)

theorem keyLe_refl (a : Str) : keyLe a a = true := by
  induction a with
  | nil => rfl
  | cons c cs ih => simp [keyLe, ih]

theorem keyLe_total (a b : Str) : keyLe a b = true ∨ keyLe b a = true := by
  induction a generalizing b with
  | nil => exact Or.inl rfl
  | cons x xs ih =>
    cases b with
    | nil => exact Or.inr rfl
    | cons y ys =>
      rcases lt_trichotomy x y with h | h | h
      · left
        simp [keyLe, h]
      · subst h
        rcases ih ys with h2 | h2
        · left
          simp [keyLe, h2]
        · right
          simp [keyLe, h2]
      · right
        simp [keyLe, h]

theorem keyLe_trans {a b c : Str} (h1 : keyLe a b = true)
    (h2 : keyLe b c = true) : keyLe a c = true := by
  induction a generalizing b c with
  | nil => rfl
  | cons x xs ih =>
    cases b with
    | nil => simp [keyLe] at h1
    | cons y ys =>
      cases c with
      | nil => simp [keyLe] at h2
      | cons z zs =>
        rcases lt_trichotomy x y with hxy | hxy | hxy
        · rcases lt_trichotomy y z with hyz | hyz | hyz
          · simp [keyLe, lt_trans hxy hyz]
          · subst hyz
            simp [keyLe, hxy]
          · exfalso
            simp [keyLe, hyz, not_lt_of_gt hyz] at h2
        · subst hxy
          rcases lt_trichotomy x z with hyz | hyz | hyz
          · simp [keyLe, hyz]
          · subst hyz
            simp [keyLe, lt_irrefl] at h1 h2 ⊢
            exact ih h1 h2
          · exfalso
            simp [keyLe, hyz, not_lt_of_gt hyz] at h2
        · exfalso
          simp [keyLe, hxy, not_lt_of_gt hxy] at h1

/-- The relation used for descending sort (`keys.sort(reverse=True)`). -/
def keyGe (a b : Str) : Prop := keyLe b a = true

instance : DecidableRel keyGe := fun a b => by
  unfold keyGe
  infer_instance

instance : IsTotal Str keyGe :=
  ⟨fun a b => (keyLe_total b a).elim Or.inl Or.inr⟩

instance : IsTrans Str keyGe :=
  ⟨fun _ _ _ h1 h2 => keyLe_trans h2 h1⟩

/-- `keys.sort(reverse=True)`. -/
def sortDescending (l : List Str) : List Str :=
  List.insertionSort keyGe l

/-- `_match_filename`: raises (`none`) on a blank filename, otherwise the
keys starting with the filename, sorted descending by raw key. -/
def matchFilenameKeys (filename : Str) (keys : List Str) :
    Option (List Str) :=
  if filename = [] then none
  else some (sortDescending (keys.filter (fun k => filename.isPrefixOf k)))

/-- One element of `match_filename`'s result list: the dict with
`filename`, `key`, `backup_date` and `is_enc`. -/
structure BackupEntry where
  filename : Str
  key : Str
  backupDate : DateTime
  isEnc : Bool
deriving DecidableEq, Repr

/-- Decoding one key inside `match_filename`'s loop: no regex match (the
key is skipped), a regex match whose date component makes `strptime`
raise (the exception propagates), or a parsed entry. -/
inductive DecodeResult where
  | noMatch : DecodeResult
  | badDate : Str → Str → Bool → DecodeResult
  | ok : BackupEntry → DecodeResult
deriving DecidableEq

def fullDecode (k : Str) : DecodeResult :=
  match decodeKey k with
  | none => .noMatch
  | some (name, dc, enc) =>
    match strptime14 dc with
    | none => .badDate name dc enc
    | some d => .ok ⟨name, k, d, enc⟩

/-- The `for key in _keys:` loop of `match_filename`. -/
def buildEntries : List Str → Option (List BackupEntry)
  | [] => some []
  | k :: ks =>
    match fullDecode k with
    | .noMatch => buildEntries ks
    | .badDate _ _ _ => none
    | .ok e => (buildEntries ks).map (fun es => e :: es)

/-- `match_filename`: `none` embeds both the blank-filename exception and
a propagated `strptime` `ValueError`. -/
def matchFilename (filename : Str) (keys : List Str) :
    Option (List BackupEntry) :=
  match matchFilenameKeys filename keys with
  | none => none
  | some ks => buildEntries ks

/-! ### Facts about the listing pipeline -/

/-- The entry produced for a key carries that key. -/
theorem fullDecode_ok_key {k : Str} {e : BackupEntry}
    (h : fullDecode k = .ok e) : e.key = k := by
  unfold fullDecode at h
  split at h
  · simp at h
  · split at h
    · simp at h
    · injection h with h'
      rw [← h']

/-- The entry the loop appends for one key, when it appends one. -/
def okEntry (k : Str) : Option BackupEntry :=
  match fullDecode k with
  | .ok e => some e
  | _ => none

theorem okEntry_eq_some {k : Str} {e : BackupEntry} :
    okEntry k = some e ↔ fullDecode k = .ok e := by
  unfold okEntry
  cases fullDecode k <;> simp

/-- Whether decoding this key would raise a `ValueError` from `strptime`
(regex matched but the date component is not a valid datetime). -/
def decodeRaises (k : Str) : Bool :=
  match fullDecode k with
  | .badDate _ _ _ => true
  | _ => false

theorem buildEntries_eq {l : List Str} {es : List BackupEntry}
    (h : buildEntries l = some es) : es = l.filterMap okEntry := by
  induction l generalizing es with
  | nil =>
    simp [buildEntries] at h
    simp [← h]
  | cons k ks ih =>
    unfold buildEntries at h
    cases hfd : fullDecode k with
    | noMatch =>
      rw [hfd] at h
      rw [List.filterMap_cons]
      simp [okEntry, hfd]
      exact ih h
    | badDate n dc e =>
      rw [hfd] at h
      simp at h
    | ok e =>
      rw [hfd] at h
      cases hb : buildEntries ks with
      | none =>
        rw [hb] at h
        simp at h
      | some es' =>
        rw [hb] at h
        simp at h
        rw [List.filterMap_cons]
        simp [okEntry, hfd]
        rw [← h, ih hb]

theorem buildEntries_some_of_all {l : List Str}
    (h : ∀ k ∈ l, decodeRaises k = false) :
    ∃ es, buildEntries l = some es := by
  induction l with
  | nil => exact ⟨[], rfl⟩
  | cons k ks ih =>
    have hk := h k (List.mem_cons_self k ks)
    obtain ⟨es, hes⟩ := ih (fun k' h' => h k' (List.mem_cons_of_mem _ h'))
    cases hfd : fullDecode k with
    | noMatch =>
      refine ⟨es, ?_⟩
      unfold buildEntries
      rw [hfd, hes]
    | badDate n dc e =>
      simp [decodeRaises, hfd] at hk
    | ok e =>
      refine ⟨e :: es, ?_⟩
      unfold buildEntries
      rw [hfd, hes]
      rfl

theorem all_of_buildEntries_some {l : List Str} {es : List BackupEntry}
    (h : buildEntries l = some es) :
    ∀ k ∈ l, decodeRaises k = false := by
  induction l generalizing es with
  | nil =>
    intro k hk
    simp at hk
  | cons k ks ih =>
    unfold buildEntries at h
    cases hfd : fullDecode k with
    | noMatch =>
      rw [hfd] at h
      intro k' hk'
      rcases List.mem_cons.mp hk' with h1 | h1
      · subst h1
        simp [decodeRaises, hfd]
      · exact ih h k' h1
    | badDate n dc e =>
      rw [hfd] at h
      simp at h
    | ok e =>
      rw [hfd] at h
      cases hb : buildEntries ks with
      | none =>
        rw [hb] at h
        simp at h
      | some es' =>
        intro k' hk'
        rcases List.mem_cons.mp hk' with h1 | h1
        · subst h1
          simp [decodeRaises, hfd]
        · exact ih hb k' h1

theorem map_key_filterMap (l : List Str) :
    (l.filterMap okEntry).map (fun e => e.key)
      = l.filter (fun k => (okEntry k).isSome) := by
  induction l with
  | nil => rfl
  | cons k ks ih =>
    cases hok : okEntry k with
    | none => simp [List.filterMap_cons, List.filter_cons, hok, ih]
    | some e =>
      have hkey : e.key = k := fullDecode_ok_key (okEntry_eq_some.mp hok)
      simp [List.filterMap_cons, List.filter_cons, hok, ih, hkey]

theorem sortDescending_perm (l : List Str) : (sortDescending l).Perm l :=
  List.perm_insertionSort keyGe l

theorem sortDescending_sorted (l : List Str) :
    (sortDescending l).Pairwise keyGe :=
  List.sorted_insertionSort keyGe l

/-- C6: for every set of stored keys and every non-empty filename,
whenever `match_filename` returns a sequence (no regex-matching key has
an invalid date component), that sequence contains exactly the decodable
keys that textually start with the filename, ordered by the raw key
string in descending lexicographic order (not by the parsed
timestamp). -/
theorem match_filename_spec (fn : Str) (keys : List Str)
    (es : List BackupEntry) (h0 : fn ≠ [])
    (h : matchFilename fn keys = some es) :
    (es.map (fun e => e.key)).Perm
        ((keys.filter (fun k => fn.isPrefixOf k)).filter
          (fun k => (okEntry k).isSome))
      ∧ (es.map (fun e => e.key)).Pairwise keyGe
      ∧ ∀ e ∈ es, fullDecode e.key = .ok e := by
  unfold matchFilename matchFilenameKeys at h
  rw [if_neg h0] at h
  have hes : es = (sortDescending
      (keys.filter (fun k => fn.isPrefixOf k))).filterMap okEntry :=
    buildEntries_eq h
  have hmap : es.map (fun e => e.key)
      = (sortDescending (keys.filter (fun k => fn.isPrefixOf k))).filter
          (fun k => (okEntry k).isSome) := by
    rw [hes, map_key_filterMap]
  refine ⟨?_, ?_, ?_⟩
  · rw [hmap]
    exact (sortDescending_perm _).filter _
  · rw [hmap]
    exact (sortDescending_sorted _).filter _
  · intro e he
    rw [hes] at he
    rw [List.mem_filterMap] at he
    obtain ⟨k, _, hok⟩ := he
    have hfd := okEntry_eq_some.mp hok
    rw [fullDecode_ok_key hfd]
    exact hfd

/-- Skipping an undecodable key: inserting a key that matches neither
pattern anywhere into the sorted list leaves the loop's output
unchanged. -/
theorem buildEntries_orderedInsert {j : Str} (hj : fullDecode j = .noMatch)
    (l : List Str) :
    buildEntries (List.orderedInsert keyGe j l) = buildEntries l := by
  induction l with
  | nil =>
    show buildEntries [j] = buildEntries []
    unfold buildEntries
    rw [hj]
    rfl
  | cons hd tl ih =>
    unfold List.orderedInsert
    by_cases hge : keyGe j hd
    · rw [if_pos hge]
      show buildEntries (j :: hd :: tl) = buildEntries (hd :: tl)
      unfold buildEntries
      rw [hj]
      rfl
    · rw [if_neg hge]
      show buildEntries (hd :: List.orderedInsert keyGe j tl)
        = buildEntries (hd :: tl)
      unfold buildEntries
      cases hfd : fullDecode hd with
      | noMatch => exact ih
      | badDate n dc e => rfl
      | ok e => rw [ih]

/-- C3 (amended): `match_filename`'s patterns are anchored only at the
start of the key (`re.match`), so a key with trailing characters after
`".tgz"` or `".enc"` can still decode, to the record of a decodable
prefix of the key; and during listing, every key that matches neither
pattern is silently skipped rather than failing the whole listing
(removing such a key from the backend never changes the listing
result). -/
theorem decode_prefix_anchored :
    decodeKey "a.20130101000000.tgzXYZ".toList
        = some ("a".toList, "20130101000000".toList, false)
      ∧ decodeKey "a.20130101000000.tgz.encXYZ".toList
        = some ("a".toList, "20130101000000".toList, true)
      ∧ ∀ fn keys j, fullDecode j = .noMatch →
          matchFilename fn (j :: keys) = matchFilename fn keys := by
  refine ⟨by decide, by decide, ?_⟩
  intro fn keys j hj
  unfold matchFilename matchFilenameKeys
  by_cases hfn : fn = []
  · rw [if_pos hfn, if_pos hfn]
  · rw [if_neg hfn, if_neg hfn]
    by_cases hpre : fn.isPrefixOf j
    · rw [List.filter_cons_of_pos (by simpa using hpre)]
      show buildEntries (List.insertionSort keyGe (j :: _)) = _
      rw [List.insertionSort]
      exact buildEntries_orderedInsert hj _
    · rw [List.filter_cons_of_neg (by simpa using hpre)]

/-- Witness for `decode_prefix_anchored`'s listing part at a concrete
instance: the undecodable key `"a.junk"` is skipped. -/
theorem decode_prefix_anchored_witness :
    matchFilename "a".toList
        ("a.junk".toList :: ["a.20130101000000.tgz".toList])
      = matchFilename "a".toList ["a.20130101000000.tgz".toList] :=
  decode_prefix_anchored.2.2 "a".toList ["a.20130101000000.tgz".toList]
    "a.junk".toList (by decide)

/-- C3 counterexample: a stored key with trailing characters after
`".tgz"` decodes to a record instead of the no-match the claim
requires. -/
theorem decode_anchoring_counterexample :
    decodeKey "a.20130101000000.tgzXYZ".toList ≠ none := by decide

/-- Witness for `match_filename_spec` at a concrete instance. -/
theorem match_filename_spec_witness :
    (([⟨"a".toList, "a.20140202000000.tgz".toList, ⟨2014, 2, 2, 0, 0, 0⟩, false⟩,
        ⟨"a".toList, "a.20130101000000.tgz".toList, ⟨2013, 1, 1, 0, 0, 0⟩, false⟩]
          : List BackupEntry).map (fun e => e.key)).Perm
        (((["a.20130101000000.tgz".toList, "a.20140202000000.tgz".toList,
            "a.junk".toList, "b.20130101000000.tgz".toList]).filter
              (fun k => ("a".toList).isPrefixOf k)).filter
          (fun k => (okEntry k).isSome))
      ∧ (([⟨"a".toList, "a.20140202000000.tgz".toList, ⟨2014, 2, 2, 0, 0, 0⟩, false⟩,
          ⟨"a".toList, "a.20130101000000.tgz".toList, ⟨2013, 1, 1, 0, 0, 0⟩, false⟩]
            : List BackupEntry).map (fun e => e.key)).Pairwise keyGe
      ∧ ∀ e ∈ ([⟨"a".toList, "a.20140202000000.tgz".toList, ⟨2014, 2, 2, 0, 0, 0⟩, false⟩,
          ⟨"a".toList, "a.20130101000000.tgz".toList, ⟨2013, 1, 1, 0, 0, 0⟩, false⟩]
            : List BackupEntry), fullDecode e.key = .ok e :=
  match_filename_spec "a".toList
    ["a.20130101000000.tgz".toList, "a.20140202000000.tgz".toList,
      "a.junk".toList, "b.20130101000000.tgz".toList]
    _ (by decide) (by decide)

example :
    decodeKey "backup20130606104712.tgz.enc".toList
      = some ("backup".toList, "20130606104712".toList, true) := by decide

example : decodeKey "readme.txt".toList = none := by decide


/-- C4: the interval parser computes the weighted sum of its tokens with
units s=1, m=60, h=3600, D=86400, W=604800, M=2592000, Y=31536000:
`_interval_string_to_seconds("1M3W4h2s")` equals
`2592000 + 3*604800 + 4*3600 + 2`; it raises on `"0s"` and `"abc"`;
and it returns `0` on the empty string. -/
theorem interval_parser_spec :
    intervalStringToSeconds "1M3W4h2s".toList
        = some (2592000 + 3 * 604800 + 4 * 3600 + 2)
      ∧ intervalStringToSeconds "0s".toList = none
      ∧ intervalStringToSeconds "abc".toList = none
      ∧ intervalStringToSeconds "".toList = some 0 := by
  refine ⟨?_, ?_, ?_, ?_⟩ <;> decide

/-! ## `delete_older_than`

```
interval_seconds = _interval_string_to_seconds(interval)
deleted = []
for key in match_filename(filename, destination, conf):
    backup_age = _timedelta_total_seconds(datetime.utcnow() - key.get("backup_date"))
    if backup_age > interval_seconds:
        real_key = key.get("key")
        storage_backend.delete(real_key)
        deleted.append(real_key)
return deleted
```
-/

/-- Days in the years before year `y` (proleptic Gregorian, as Python's
`datetime.toordinal`). -/
def daysBeforeYear (y : Nat) : Nat :=
  365 * (y - 1) + (y - 1) / 4 - (y - 1) / 100 + (y - 1) / 400

/-- Days in the months of year `y` strictly before month `m`. -/
def daysBeforeMonth (y m : Nat) : Nat :=
  ((List.range (m - 1)).map (fun i => daysInMonth y (i + 1))).foldl
    (fun a b => a + b) 0

/-- Seconds since 0001-01-01 00:00:00, the scale on which
`datetime` subtraction (`utcnow() - backup_date`) measures. -/
def dtToSeconds (t : DateTime) : Nat :=
  (daysBeforeYear t.year + daysBeforeMonth t.year t.month + (t.day - 1))
      * 86400
    + t.hour * 3600 + t.minute * 60 + t.second

/-- `_timedelta_total_seconds(now - backup_date)` (integral here, since
both instants are at second precision). -/
def ageSeconds (now bd : DateTime) : Int :=
  (dtToSeconds now : Int) - (dtToSeconds bd : Int)

/-- One loop iteration of `delete_older_than`: when the backup is
strictly older than the interval, the key is deleted from the backend
state and appended to `deleted`. -/
def deleteStep (now : DateTime) (iv : Nat) (acc : List Str × List Str)
    (e : BackupEntry) : List Str × List Str :=
  if ageSeconds now e.backupDate > (iv : Int) then
    (acc.1 ++ [e.key], acc.2.filter (fun k => k ≠ e.key))
  else acc

/-- `delete_older_than(filename, interval)` against backend state `keys`
at instant `now`.  Returns `(deleted, new backend state)`; `none` embeds
the raised exceptions (bad interval string, blank filename, `strptime`
`ValueError`). -/
def deleteOlderThan (fn interval : Str) (now : DateTime)
    (keys : List Str) : Option (List Str × List Str) :=
  match intervalStringToSeconds interval with
  | none => none
  | some iv =>
    match matchFilename fn keys with
    | none => none
    | some entries => some (entries.foldl (deleteStep now iv) ([], keys))

theorem deleteStep_eq (now : DateTime) (iv : Nat)
    (acc : List Str × List Str) (e : BackupEntry) :
    deleteStep now iv acc e
      = if ageSeconds now e.backupDate > (iv : Int) then
          (acc.1 ++ [e.key], acc.2.filter (fun k => k ≠ e.key))
        else acc := rfl

theorem mem_deleteFold_state (now : DateTime) (iv : Nat)
    (entries : List BackupEntry) (acc : List Str × List Str) (k : Str) :
    (k ∈ (entries.foldl (deleteStep now iv) acc).2
      ↔ k ∈ acc.2 ∧ ∀ e ∈ entries,
          ageSeconds now e.backupDate > (iv : Int) → k ≠ e.key) := by
  induction entries generalizing acc with
  | nil => simp
  | cons e es ih =>
    rw [List.foldl_cons, deleteStep_eq]
    by_cases hc : ageSeconds now e.backupDate > (iv : Int)
    · rw [if_pos hc, ih]
      simp only [List.mem_filter, decide_eq_true_eq, List.mem_cons]
      constructor
      · rintro ⟨⟨hk, hne⟩, hrest⟩
        refine ⟨hk, ?_⟩
        intro e' he' hage
        rcases he' with h1 | h1
        · rw [h1]
          exact hne
        · exact hrest e' h1 hage
      · rintro ⟨hk, hall⟩
        exact ⟨⟨hk, hall e (Or.inl rfl) hc⟩,
          fun e' he' hage => hall e' (Or.inr he') hage⟩
    · rw [if_neg hc, ih]
      constructor
      · rintro ⟨hk, hrest⟩
        refine ⟨hk, ?_⟩
        intro e' he' hage
        rcases List.mem_cons.mp he' with h1 | h1
        · rw [h1] at hage
          exact absurd hage hc
        · exact hrest e' h1 hage
      · rintro ⟨hk, hall⟩
        exact ⟨hk, fun e' he' hage => hall e' (List.mem_cons_of_mem _ he') hage⟩

theorem deleteFold_no_op (now : DateTime) (iv : Nat)
    (entries : List BackupEntry) (acc : List Str × List Str)
    (h : ∀ e ∈ entries, ¬ ageSeconds now e.backupDate > (iv : Int)) :
    entries.foldl (deleteStep now iv) acc = acc := by
  induction entries generalizing acc with
  | nil => rfl
  | cons e es ih =>
    rw [List.foldl_cons, deleteStep_eq,
      if_neg (h e (List.mem_cons_self e es))]
    exact ih _ (fun e' he' => h e' (List.mem_cons_of_mem _ he'))

/-- A key that is present, prefixed and decodable yields its entry in the
listing. -/
theorem entry_mem_of_key {fn : Str} {keys : List Str}
    {es : List BackupEntry} (h : matchFilename fn keys = some es)
    {k : Str} {e : BackupEntry} (hk : k ∈ keys)
    (hpre : fn.isPrefixOf k = true) (hok : fullDecode k = .ok e) :
    e ∈ es := by
  unfold matchFilename matchFilenameKeys at h
  by_cases hfn : fn = []
  · rw [if_pos hfn] at h
    simp at h
  · rw [if_neg hfn] at h
    rw [buildEntries_eq h, List.mem_filterMap]
    refine ⟨k, ?_, okEntry_eq_some.mpr hok⟩
    exact ((sortDescending_perm _).mem_iff).mpr
      (List.mem_filter.mpr ⟨hk, hpre⟩)

/-- Every listed entry's key is a present, prefixed, decodable key. -/
theorem entry_key_facts {fn : Str} {keys : List Str}
    {es : List BackupEntry} (h : matchFilename fn keys = some es)
    {e : BackupEntry} (he : e ∈ es) :
    e.key ∈ keys ∧ fn.isPrefixOf e.key = true ∧ fullDecode e.key = .ok e := by
  unfold matchFilename matchFilenameKeys at h
  by_cases hfn : fn = []
  · rw [if_pos hfn] at h
    simp at h
  · rw [if_neg hfn] at h
    rw [buildEntries_eq h, List.mem_filterMap] at he
    obtain ⟨k, hkmem, hok⟩ := he
    have hfd := okEntry_eq_some.mp hok
    have hkey := fullDecode_ok_key hfd
    have hk2 := ((sortDescending_perm _).mem_iff).mp hkmem
    obtain ⟨hmem, hpre⟩ := List.mem_filter.mp hk2
    rw [hkey]
    exact ⟨hmem, hpre, hfd⟩

/-- Listing still returns on any backend state that is a sub-collection
of one on which it returned. -/
theorem matchFilename_some_of_sub {fn : Str} {keys keys' : List Str}
    {es : List BackupEntry} (h : matchFilename fn keys = some es)
    (hsub : ∀ k ∈ keys', k ∈ keys) :
    ∃ es', matchFilename fn keys' = some es' := by
  have hfn : fn ≠ [] := by
    intro hfn
    unfold matchFilename matchFilenameKeys at h
    rw [if_pos hfn] at h
    simp at h
  unfold matchFilename matchFilenameKeys at h ⊢
  rw [if_neg hfn] at h ⊢
  apply buildEntries_some_of_all
  intro k hk
  have hk2 := ((sortDescending_perm _).mem_iff).mp hk
  obtain ⟨hmem, hpre⟩ := List.mem_filter.mp hk2
  have hkeys : k ∈ sortDescending (keys.filter (fun k => fn.isPrefixOf k)) :=
    ((sortDescending_perm _).mem_iff).mpr
      (List.mem_filter.mpr ⟨hsub k hmem, hpre⟩)
  exact all_of_buildEntries_some h k hkeys

/-- C7 (amended): delete-older-than is idempotent at a fixed reference
instant: running it again with the same filename, interval and `now` and
no new backups deletes nothing and returns an empty list, leaving the
backend state unchanged. -/
theorem delete_older_than_idempotent (fn interval : Str) (now : DateTime)
    (keys d1 keys1 : List Str)
    (h : deleteOlderThan fn interval now keys = some (d1, keys1)) :
    deleteOlderThan fn interval now keys1 = some ([], keys1) := by
  unfold deleteOlderThan at h
  split at h
  · exact absurd h (by simp)
  · rename_i iv hiv
    split at h
    · exact absurd h (by simp)
    · rename_i entries hmf
      injection h with hfold
      have hkeys1 : ∀ k, k ∈ keys1 ↔ k ∈ keys ∧ ∀ e ∈ entries,
          ageSeconds now e.backupDate > (iv : Int) → k ≠ e.key := by
        intro k
        have hm := mem_deleteFold_state now iv entries ([], keys) k
        rw [hfold] at hm
        exact hm
      have hsub : ∀ k ∈ keys1, k ∈ keys :=
        fun k hk => ((hkeys1 k).mp hk).1
      obtain ⟨es2, hes2⟩ := matchFilename_some_of_sub hmf hsub
      have hnone : ∀ e2 ∈ es2,
          ¬ ageSeconds now e2.backupDate > (iv : Int) := by
        intro e2 he2 hage
        obtain ⟨hmem1, hpre, hok⟩ := entry_key_facts hes2 he2
        have he1 : e2 ∈ entries :=
          entry_mem_of_key hmf (hsub _ hmem1) hpre hok
        exact ((hkeys1 e2.key).mp hmem1).2 e2 he1 hage rfl
      unfold deleteOlderThan
      rw [hiv, hes2]
      show some (es2.foldl (deleteStep now iv) ([], keys1))
        = some ([], keys1)
      rw [deleteFold_no_op now iv es2 ([], keys1) hnone]

/-- Witness for `delete_older_than_idempotent` at a concrete instance:
at 02:00:00 the one-hour-old backup is deleted; re-running at the same
instant deletes nothing. -/
theorem delete_older_than_idempotent_witness :
    deleteOlderThan "a".toList "1h".toList ⟨2013, 1, 1, 2, 0, 0⟩ []
      = some ([], []) :=
  delete_older_than_idempotent "a".toList "1h".toList ⟨2013, 1, 1, 2, 0, 0⟩
    ["a.20130101000000.tgz".toList] ["a.20130101000000.tgz".toList] []
    (by decide)

/-- C7 counterexample: between two real invocations the clock advances.
With one backup taken at 2013-01-01 00:00:00 and interval `"1h"`, a
first run at exactly 01:00:00 deletes nothing (age is not strictly
greater than the interval), while the second run one second later
deletes that backup — so the second run does not return an empty
list. -/
theorem delete_older_than_counterexample :
    deleteOlderThan "a".toList "1h".toList ⟨2013, 1, 1, 1, 0, 0⟩
        ["a.20130101000000.tgz".toList]
      = some ([], ["a.20130101000000.tgz".toList])
      ∧ deleteOlderThan "a".toList "1h".toList ⟨2013, 1, 1, 1, 0, 1⟩
        ["a.20130101000000.tgz".toList]
      = some (["a.20130101000000.tgz".toList], [])
      ∧ (["a.20130101000000.tgz".toList] : List Str) ≠ [] := by
  refine ⟨by decide, by decide, by decide⟩

/-! ## `restore` and `delete` target selection

`restore` takes `sorted(_match_filename(...), reverse=True)[0]`;
`delete` takes `_match_filename(...)[0]` (already sorted descending) and
deletes exactly that key. -/

/-- The key `restore` downloads (`None` embeds the blank-filename and
no-match early returns). -/
def restoreTarget (fn : Str) (keys : List Str) : Option Str :=
  if fn = [] then none
  else if sortDescending (keys.filter (fun k => fn.isPrefixOf k)) = [] then
    none
  else
    (sortDescending
      (sortDescending (keys.filter (fun k => fn.isPrefixOf k)))).head?

/-- `delete`: the key it deletes and the backend state afterwards. -/
def deleteTargetRun (fn : Str) (keys : List Str) :
    Option (Str × List Str) :=
  if fn = [] then none
  else
    match sortDescending (keys.filter (fun k => fn.isPrefixOf k)) with
    | [] => none
    | k :: _ => some (k, keys.filter (fun k' => k' ≠ k))

theorem sortDescending_head_max {l : List Str} {m : Str} {tl : List Str}
    (h : sortDescending l = m :: tl) : ∀ k ∈ l, keyLe k m = true := by
  intro k hk
  have hmem : k ∈ m :: tl := by
    rw [← h]
    exact ((sortDescending_perm l).mem_iff).mpr hk
  rcases List.mem_cons.mp hmem with h1 | h1
  · rw [h1]
    exact keyLe_refl m
  · have hs := sortDescending_sorted l
    rw [h] at hs
    exact (List.pairwise_cons.mp hs).1 k h1

/-! ### Chronological order of stored keys

Lexicographic order on the fixed-width zero-padded date component agrees
with numeric (hence chronological) order. -/

/-- The numeric value of the 14-digit date component: chronological
order of valid timestamps. -/
def dtValue (t : DateTime) : Nat :=
  ((((t.year * 100 + t.month) * 100 + t.day) * 100 + t.hour) * 100
    + t.minute) * 100 + t.second

theorem isDigit_toNat {c : Char} (h : c.isDigit = true) :
    48 ≤ c.toNat ∧ c.toNat ≤ 57 := by
  simp [Char.isDigit] at h
  exact h

theorem char_lt_iff (x y : Char) : x < y ↔ x.toNat < y.toNat := by
  simp [Char.lt_def]
  exact Iff.rfl

theorem toNatDigits_foldl (l : Str) (a : Nat) :
    l.foldl (fun a c => a * 10 + (c.toNat - 48)) a
      = a * 10 ^ l.length + toNatDigits l := by
  induction l generalizing a with
  | nil => simp [toNatDigits]
  | cons c cs ih =>
    rw [List.foldl_cons, ih]
    have h2 : toNatDigits (c :: cs)
        = (c.toNat - 48) * 10 ^ cs.length + toNatDigits cs := by
      unfold toNatDigits
      rw [List.foldl_cons, ih]
      simp [toNatDigits]
    rw [List.length_cons, h2]
    ring

theorem toNatDigits_cons (c : Char) (cs : Str) :
    toNatDigits (c :: cs)
      = (c.toNat - 48) * 10 ^ cs.length + toNatDigits cs := by
  unfold toNatDigits
  rw [List.foldl_cons, toNatDigits_foldl]
  simp [toNatDigits]

theorem toNatDigits_append (A B : Str) :
    toNatDigits (A ++ B) = toNatDigits A * 10 ^ B.length + toNatDigits B := by
  unfold toNatDigits
  rw [List.foldl_append]
  exact toNatDigits_foldl B _

theorem toNatDigits_lt_pow {l : Str} (h : l.all Char.isDigit = true) :
    toNatDigits l < 10 ^ l.length := by
  induction l with
  | nil => simp [toNatDigits]
  | cons c cs ih =>
    rw [List.all_cons, Bool.and_eq_true] at h
    have hc := isDigit_toNat h.1
    have hcs := ih h.2
    have hd : c.toNat - 48 ≤ 9 := by omega
    calc toNatDigits (c :: cs)
        = (c.toNat - 48) * 10 ^ cs.length + toNatDigits cs :=
          toNatDigits_cons c cs
      _ < (c.toNat - 48) * 10 ^ cs.length + 10 ^ cs.length :=
          Nat.add_lt_add_left hcs _
      _ = (c.toNat - 48 + 1) * 10 ^ cs.length := by ring
      _ ≤ 10 * 10 ^ cs.length :=
          Nat.mul_le_mul_right _ (by omega)
      _ = 10 ^ (c :: cs).length := by
          rw [List.length_cons, pow_succ]
          ring

/-- Equal-length all-digit strings compare lexicographically like their
numeric values; the comparison is decided strictly inside the digits, so
arbitrary tails do not affect it. -/
theorem keyLe_append_digits_false : ∀ {a b : Str}, a.length = b.length →
    a.all Char.isDigit = true → b.all Char.isDigit = true →
    toNatDigits a < toNatDigits b →
    ∀ u v, keyLe (b ++ v) (a ++ u) = false := by
  intro a
  induction a with
  | nil =>
    intro b hlen _ _ hlt u v
    cases b with
    | nil => simp [toNatDigits] at hlt
    | cons y ys => simp at hlen
  | cons x xs ih =>
    intro b hlen ha hb hlt u v
    cases b with
    | nil => simp at hlen
    | cons y ys =>
      rw [List.all_cons, Bool.and_eq_true] at ha hb
      have hx := isDigit_toNat ha.1
      have hy := isDigit_toNat hb.1
      have hlen' : xs.length = ys.length := by simpa using hlen
      have hvx := toNatDigits_cons x xs
      have hvy := toNatDigits_cons y ys
      rw [List.cons_append, List.cons_append]
      rcases lt_trichotomy x.toNat y.toNat with hc | hc | hc
      · have hxy : x < y := (char_lt_iff x y).mpr hc
        have hnyx : ¬ y < x := by
          intro hcon
          have := (char_lt_iff y x).mp hcon
          omega
        simp [keyLe, hnyx, hxy]
      · have hxeq : x = y := by
          have h1 : ¬ x < y := by
            intro hcon
            have := (char_lt_iff x y).mp hcon
            omega
          have h2 : ¬ y < x := by
            intro hcon
            have := (char_lt_iff y x).mp hcon
            omega
          rcases lt_trichotomy x y with hc1 | hc1 | hc1
          · exact absurd hc1 h1
          · exact hc1
          · exact absurd hc1 h2
        subst hxeq
        have hstep : keyLe (x :: (ys ++ v)) (x :: (xs ++ u))
            = keyLe (ys ++ v) (xs ++ u) := by
          simp [keyLe, lt_irrefl]
        rw [hstep]
        apply ih hlen' ha.2 hb.2 _ u v
        rw [hvx, hvy, hlen'] at hlt
        exact Nat.lt_of_add_lt_add_left hlt
      · exfalso
        have hAp : toNatDigits xs < 10 ^ xs.length := toNatDigits_lt_pow ha.2
        have hBp : toNatDigits ys < 10 ^ ys.length := toNatDigits_lt_pow hb.2
        rw [hvx, hvy] at hlt
        rw [hlen'] at hlt hAp
        have hd : y.toNat - 48 + 1 ≤ x.toNat - 48 := by omega
        have h1 : (y.toNat - 48) * 10 ^ ys.length + toNatDigits ys
            < (y.toNat - 48 + 1) * 10 ^ ys.length := by
          rw [add_mul, one_mul]
          exact Nat.add_lt_add_left hBp _
        have h2 : (y.toNat - 48 + 1) * 10 ^ ys.length
            ≤ (x.toNat - 48) * 10 ^ ys.length :=
          Nat.mul_le_mul_right _ hd
        have h3 : (x.toNat - 48) * 10 ^ ys.length
            ≤ (x.toNat - 48) * 10 ^ ys.length + toNatDigits xs :=
          Nat.le_add_right _ _
        have hge := lt_of_lt_of_le h1 (le_trans h2 h3)
        exact absurd hge (lt_asymm hlt)

theorem keyLe_cons_same (c : Char) (a b : Str) :
    keyLe (c :: a) (c :: b) = keyLe a b := by
  simp [keyLe, lt_irrefl]

theorem keyLe_append_same (p a b : Str) :
    keyLe (p ++ a) (p ++ b) = keyLe a b := by
  induction p with
  | nil => rfl
  | cons c cs ih => rw [List.cons_append, List.cons_append, keyLe_cons_same, ih]

theorem toNatDigits_format14 {t : DateTime} (h : ValidDT t) :
    toNatDigits (format14 t) = dtValue t := by
  obtain ⟨hy1, hy2, hm1, hm2, hd1, hd2, hh, hmi, hs⟩ := h
  have hdim := daysInMonth_le_31 t.year t.month
  have hf : format14 t
      = pad4 t.year ++ (pad2 t.month ++ (pad2 t.day
          ++ (pad2 t.hour ++ (pad2 t.minute ++ pad2 t.second)))) := rfl
  have l10 : (pad2 t.month ++ (pad2 t.day ++ (pad2 t.hour
      ++ (pad2 t.minute ++ pad2 t.second)))).length = 10 := rfl
  have l8 : (pad2 t.day ++ (pad2 t.hour
      ++ (pad2 t.minute ++ pad2 t.second))).length = 8 := rfl
  have l6 : (pad2 t.hour ++ (pad2 t.minute ++ pad2 t.second)).length = 6 := rfl
  have l4 : (pad2 t.minute ++ pad2 t.second).length = 4 := rfl
  have l2 : (pad2 t.second).length = 2 := rfl
  rw [hf, toNatDigits_append, toNatDigits_append, toNatDigits_append,
    toNatDigits_append, toNatDigits_append,
    toNatDigits_pad4 (by omega), toNatDigits_pad2 (by omega),
    toNatDigits_pad2 (by omega), toNatDigits_pad2 (by omega),
    toNatDigits_pad2 (by omega), toNatDigits_pad2 (by omega),
    l10, l8, l6, l4, l2]
  unfold dtValue
  ring

/-- C9: when more than one stored key matches the filename prefix,
`restore` and `delete` each operate on exactly one backup — the
lexicographically greatest matching key — and `delete` leaves every
other backup untouched.  Under the fixed-width zero-padded timestamp
format that key is the most recent generation: for a fixed logical name,
a chronologically later valid timestamp always yields a strictly greater
stored key. -/
theorem restore_delete_most_recent (fn : Str) (keys : List Str)
    (h0 : fn ≠ []) (h1 : keys.filter (fun k => fn.isPrefixOf k) ≠ []) :
    (∃ m,
      restoreTarget fn keys = some m
        ∧ deleteTargetRun fn keys
            = some (m, keys.filter (fun k' => k' ≠ m))
        ∧ m ∈ keys ∧ fn.isPrefixOf m = true
        ∧ (∀ k ∈ keys, fn.isPrefixOf k = true → keyLe k m = true)
        ∧ (∀ k ∈ keys, k ≠ m → k ∈ keys.filter (fun k' => k' ≠ m)))
      ∧ ∀ (name : Str) (t t' : DateTime) (e e' : Bool),
          ValidDT t → ValidDT t' → dtValue t < dtValue t' →
          keyLt (encodeKey name (format14 t) e)
            (encodeKey name (format14 t') e') = true := by
  constructor
  · have hperm := sortDescending_perm (keys.filter (fun k => fn.isPrefixOf k))
    have hknil : sortDescending (keys.filter (fun k => fn.isPrefixOf k))
        ≠ [] := by
      intro hcon
      rw [hcon] at hperm
      exact h1 hperm.symm.eq_nil
    cases hsd : sortDescending (keys.filter (fun k => fn.isPrefixOf k)) with
    | nil => exact absurd hsd hknil
    | cons m tl =>
      have hmmem : m ∈ keys.filter (fun k => fn.isPrefixOf k) := by
        apply ((sortDescending_perm _).mem_iff).mp
        rw [hsd]
        exact List.mem_cons_self m tl
      obtain ⟨hmkeys, hmpre⟩ := List.mem_filter.mp hmmem
      refine ⟨m, ?_, ?_, hmkeys, hmpre, ?_, ?_⟩
      · unfold restoreTarget
        have hss : sortDescending (m :: tl) = m :: tl :=
          List.Sorted.insertionSort_eq
            (by rw [← hsd]; exact sortDescending_sorted _)
        rw [if_neg h0, if_neg (by rw [hsd]; simp), hsd, hss]
        rfl
      · unfold deleteTargetRun
        rw [if_neg h0, hsd]
      · intro k hk hpre
        exact sortDescending_head_max hsd k (List.mem_filter.mpr ⟨hk, hpre⟩)
      · intro k hk hne
        exact List.mem_filter.mpr ⟨hk, by simpa using hne⟩
  · intro name t t' e e' hv hv' hlt
    have hnum : toNatDigits (format14 t) < toNatDigits (format14 t') := by
      rw [toNatDigits_format14 hv, toNatDigits_format14 hv']
      exact hlt
    have hmain := keyLe_append_digits_false
      (a := format14 t) (b := format14 t')
      (by rw [format14_length, format14_length])
      (format14_all_digits hv) (format14_all_digits hv') hnum
      (".tgz".toList ++ (if e then ".enc".toList else []))
      (".tgz".toList ++ (if e' then ".enc".toList else []))
    have hk1 : encodeKey name (format14 t) e
        = name ++ '.' :: (format14 t
            ++ (".tgz".toList ++ (if e then ".enc".toList else []))) := by
      unfold encodeKey
      simp [List.cons_append, List.append_assoc]
    have hk2 : encodeKey name (format14 t') e'
        = name ++ '.' :: (format14 t'
            ++ (".tgz".toList ++ (if e' then ".enc".toList else []))) := by
      unfold encodeKey
      simp [List.cons_append, List.append_assoc]
    unfold keyLt
    rw [hk1, hk2,
      keyLe_append_same name
        ('.' :: (format14 t'
          ++ (".tgz".toList ++ (if e' then ".enc".toList else []))))
        ('.' :: (format14 t
          ++ (".tgz".toList ++ (if e then ".enc".toList else [])))),
      keyLe_cons_same, hmain]
    rfl

/-- Witness for `restore_delete_most_recent` at a concrete instance. -/
theorem restore_delete_most_recent_witness :
    (∃ m,
      restoreTarget "a".toList
          ["a.20130101000000.tgz".toList, "a.20140202000000.tgz".toList,
            "b.x".toList] = some m
        ∧ deleteTargetRun "a".toList
            ["a.20130101000000.tgz".toList, "a.20140202000000.tgz".toList,
              "b.x".toList]
            = some (m, (["a.20130101000000.tgz".toList,
                "a.20140202000000.tgz".toList,
                "b.x".toList]).filter (fun k' => k' ≠ m))
        ∧ m ∈ ["a.20130101000000.tgz".toList, "a.20140202000000.tgz".toList,
            "b.x".toList]
        ∧ ("a".toList).isPrefixOf m = true
        ∧ (∀ k ∈ ["a.20130101000000.tgz".toList,
            "a.20140202000000.tgz".toList, "b.x".toList],
            ("a".toList).isPrefixOf k = true → keyLe k m = true)
        ∧ (∀ k ∈ ["a.20130101000000.tgz".toList,
            "a.20140202000000.tgz".toList, "b.x".toList], k ≠ m →
            k ∈ (["a.20130101000000.tgz".toList,
              "a.20140202000000.tgz".toList,
              "b.x".toList]).filter (fun k' => k' ≠ m)))
      ∧ ∀ (name : Str) (t t' : DateTime) (e e' : Bool),
          ValidDT t → ValidDT t' → dtValue t < dtValue t' →
          keyLt (encodeKey name (format14 t) e)
            (encodeKey name (format14 t') e') = true :=
  restore_delete_most_recent "a".toList
    ["a.20130101000000.tgz".toList, "a.20140202000000.tgz".toList,
      "b.x".toList] (by decide) (by decide)

/-! ## The `backup` pipeline's file effects

```
arcname = filename.strip('/').split('/')[-1]
...
if mimetypes.guess_type(arcname) == ('application/x-tar', 'gzip'):
    outname = filename
    new_arcname = re.sub(r'(\.t(ar\.)?gz)', '', arcname)
    stored_filename = backup_file_fmt.format(new_arcname, date_component)
    bakthat_compression = False
else:
    with tempfile.NamedTemporaryFile(delete=False) as out: ...
    bakthat_compression = True
if password:
    encrypted_out = tempfile.NamedTemporaryFile(delete=False)
    encrypt_file(outname, encrypted_out.name, password)
    stored_filename += ".enc"
    if bakthat_compression:
        os.remove(outname)
    outname = encrypted_out.name
storage_backend.upload(stored_filename, outname)
if bakthat_encryption:
    os.remove(outname)
```
The run is modelled as the sequence of file events the code performs, in
program order; whether the source is a recognized gzip-compressed tar
(`mimetypes.guess_type`, an external collaborator) is a parameter. -/

/-- `filename.strip('/')`. -/
def stripSlashes (s : Str) : Str :=
  ((s.dropWhile (fun c => c = '/')).reverse.dropWhile
    (fun c => c = '/')).reverse

/-- `filename.strip('/').split('/')[-1]`. -/
def lastSegment (s : Str) : Str :=
  ((stripSlashes s).reverse.takeWhile (fun c => c ≠ '/')).reverse

/-- `re.sub(r'(\.t(ar\.)?gz)', '', s)` with fuel for structural
recursion (`fuel = s.length` always suffices: every step advances by at
least one character). -/
def subTgzFuel : Nat → Str → Str
  | _, [] => []
  | 0, s => s
  | fuel + 1, c :: cs =>
    if (".tar.gz".toList).isPrefixOf (c :: cs) then
      subTgzFuel fuel ((c :: cs).drop 7)
    else if (".tgz".toList).isPrefixOf (c :: cs) then
      subTgzFuel fuel ((c :: cs).drop 4)
    else c :: subTgzFuel fuel cs

/-- The global substitution removing every occurrence of `".tar.gz"` or
`".tgz"` (leftmost-first, greedy alternative first, non-overlapping). -/
def subTgz (s : Str) : Str := subTgzFuel s.length s

/-- What `backup` hands to `storage_backend.upload`. -/
inductive Payload where
  | original
  | compressedTemp
  | encryptedOriginal
  | encryptedCompressed
deriving DecidableEq, Repr

/-- One observable file event of a `backup` run. -/
inductive FsEvent where
  | createTempCompressed
  | createTempEncrypted
  | removeTempCompressed
  | removeTempEncrypted
  | removeSource
  | upload : Str → Payload → FsEvent
  | raise
deriving DecidableEq, Repr

/-- The file events of one `backup` run, in program order.
`isTarGz` is `mimetypes.guess_type(arcname) == ('application/x-tar',
'gzip')`; `password = none` covers both an explicit empty password and a
declined prompt; `encryptOk = false` makes `encrypt_file` raise. -/
def backupTrace (filename : Str) (isTarGz : Bool) (password : Option Str)
    (encryptOk : Bool) (dc : Str) : List FsEvent :=
  let arcname := lastSegment filename
  let stored :=
    if isTarGz then encodeKey (subTgz arcname) dc false
    else encodeKey arcname dc false
  let compressEvents :=
    if isTarGz then ([] : List FsEvent) else [FsEvent.createTempCompressed]
  match password with
  | none =>
    compressEvents
      ++ [FsEvent.upload stored
            (if isTarGz then Payload.original else Payload.compressedTemp)]
  | some _ =>
    compressEvents ++ [FsEvent.createTempEncrypted]
      ++ (if encryptOk then
            (if isTarGz then [] else [FsEvent.removeTempCompressed])
              ++ [FsEvent.upload (stored ++ ".enc".toList)
                    (if isTarGz then Payload.encryptedOriginal
                     else Payload.encryptedCompressed),
                  FsEvent.removeTempEncrypted]
          else [FsEvent.raise])

/-- The compressed temp file exists when `backup` exits. -/
def tempCompressedLeft (tr : List FsEvent) : Bool :=
  tr.contains FsEvent.createTempCompressed
    && !(tr.contains FsEvent.removeTempCompressed)

/-- The encrypted temp file exists when `backup` exits. -/
def tempEncryptedLeft (tr : List FsEvent) : Bool :=
  tr.contains FsEvent.createTempEncrypted
    && !(tr.contains FsEvent.removeTempEncrypted)

/-- The caller's source file was deleted. -/
def sourceDeleted (tr : List FsEvent) : Bool :=
  tr.contains FsEvent.removeSource

/-- Whether the run raised. -/
def raised (tr : List FsEvent) : Bool := tr.contains FsEvent.raise

/-- The uploads performed, with their payloads. -/
def uploads (tr : List FsEvent) : List (Str × Payload) :=
  tr.filterMap (fun e =>
    match e with
    | .upload k p => some (k, p)
    | _ => none)

/-- C2: the code violates the cleanup guarantee.  A successful
unencrypted backup of a not-yet-compressed source leaves the compressed
temporary file on disk (the final `os.remove` is guarded by
`bakthat_encryption`, not `bakthat_compression`, contradicting the
adjacent comment "We only remove the file if the archive is created by
bakthat"), and a failure inside `encrypt_file` leaks both temporary
files (there is no `try/finally`).  The true half of the claim also
holds: a caller-provided source file is never deleted on any path, and
the encrypted success path does clean up both temp files. -/
theorem backup_temp_cleanup_bug :
    (tempCompressedLeft
        (backupTrace "data".toList false none true "20130101000000".toList)
          = true
      ∧ raised
          (backupTrace "data".toList false none true
            "20130101000000".toList) = false
      ∧ uploads (backupTrace "data".toList false none true
            "20130101000000".toList)
          = [("data.20130101000000.tgz".toList, Payload.compressedTemp)])
      ∧ (tempCompressedLeft
            (backupTrace "data".toList false (some "pw".toList) false
              "20130101000000".toList) = true
          ∧ tempEncryptedLeft
              (backupTrace "data".toList false (some "pw".toList) false
                "20130101000000".toList) = true
          ∧ raised
              (backupTrace "data".toList false (some "pw".toList) false
                "20130101000000".toList) = true)
      ∧ (∀ filename isTarGz password encryptOk dc,
          sourceDeleted (backupTrace filename isTarGz password encryptOk dc)
            = false)
      ∧ (∀ filename dc password,
          tempCompressedLeft (backupTrace filename false (some password)
              true dc) = false
            ∧ tempEncryptedLeft (backupTrace filename false (some password)
              true dc) = false) := by
  refine ⟨⟨by decide, by decide, by decide⟩, ⟨by decide, by decide, by decide⟩,
    ?_, ?_⟩
  · intro filename isTarGz password encryptOk dc
    unfold sourceDeleted backupTrace
    cases password with
    | none => cases isTarGz <;> simp [List.contains_cons]
    | some p =>
      cases isTarGz <;> cases encryptOk <;> simp [List.contains_cons]
  · intro filename dc password
    constructor
    · unfold tempCompressedLeft backupTrace
      simp [List.contains_cons]
    · unfold tempEncryptedLeft backupTrace
      simp [List.contains_cons]

/-- C10 (amended): when the source is already a recognized
gzip-compressed tar, `backup` removes every occurrence of `".tgz"` /
`".tar.gz"` from the source's last path segment (a global regex
substitution, which strips exactly the suffix whenever the base contains
no other such substring), forms `"<stripped>.<timestamp>.tgz"` (plus
`".enc"` under a password), skips compression, and uploads the original
file itself — or its direct encryption — never a recompression. -/
theorem backup_already_compressed (filename : Str) (password : Option Str)
    (dc : Str) :
    uploads (backupTrace filename true password true dc)
        = [(encodeKey (subTgz (lastSegment filename)) dc password.isSome,
            if password.isSome then Payload.encryptedOriginal
            else Payload.original)]
      ∧ tempCompressedLeft (backupTrace filename true password true dc)
          = false
      ∧ sourceDeleted (backupTrace filename true password true dc)
          = false
      ∧ subTgz "foo.tgz".toList = "foo".toList
      ∧ subTgz "foo.tar.gz".toList = "foo".toList := by
  refine ⟨?_, ?_, ?_, by decide, by decide⟩
  · cases password with
    | none =>
      unfold uploads backupTrace
      simp [encodeKey]
    | some p =>
      unfold uploads backupTrace
      simp [encodeKey, List.append_assoc]
  · cases password with
    | none =>
      unfold tempCompressedLeft backupTrace
      simp [List.contains_cons]
    | some p =>
      unfold tempCompressedLeft backupTrace
      simp [List.contains_cons]
  · cases password with
    | none =>
      unfold sourceDeleted backupTrace
      simp [List.contains_cons]
    | some p =>
      unfold sourceDeleted backupTrace
      simp [List.contains_cons]

/-- C10 counterexample: for the already-compressed source
`"foo.tgz.bak.tgz"` (recognized by `mimetypes` as a gzip tar), the
global substitution also removes the `".tgz"` in the middle of the name,
so the stored key is `"foo.bak.<ts>.tgz"`, not the
`"foo.tgz.bak.<ts>.tgz"` that stripping only the suffix would give. -/
theorem backup_already_compressed_counterexample :
    uploads (backupTrace "foo.tgz.bak.tgz".toList true none true
        "20130101000000".toList)
      = [("foo.bak.20130101000000.tgz".toList, Payload.original)]
      ∧ ("foo.bak.20130101000000.tgz".toList : Str)
          ≠ "foo.tgz.bak.20130101000000.tgz".toList := by
  exact ⟨by decide, by decide⟩

/-! ## Glacier inventory checkpoint

Modelled from the spec: `GlacierBackend.backup_inventory` and
`GlacierBackend.restore_inventory` live in `bakthat/backends.py`, which
is not part of this source slice (only their callers
`backup_glacier_inventory` / `restore_glacier_inventory` are).  Per the
spec, the shadow inventory is a local durable catalog mapping archive
name to remote archive id; `sync_to_remote` serializes the entire
catalog and uploads it to the object-store tier under a fixed well-known
name, and `restore_from_remote` downloads the checkpoint and replaces
the local catalog wholesale. -/

/-- Modelled from the spec: the cold-storage backend's state — the local
shadow catalog and the object-store checkpoint slot. -/
structure GlacierState where
  localCatalog : List (Str × Str)
  remoteCheckpoint : Option (List (Str × Str))
deriving DecidableEq, Repr

/-- Modelled from the spec: `backup_glacier_inventory`
(`sync_to_remote`) uploads the whole catalog as the checkpoint. -/
def backupInventory (s : GlacierState) : GlacierState :=
  { s with remoteCheckpoint := some s.localCatalog }

/-- Modelled from the spec: `restore_glacier_inventory`
(`restore_from_remote`) replaces the local catalog wholesale with the
checkpoint; `none` when no checkpoint exists. -/
def restoreInventory (s : GlacierState) : Option GlacierState :=
  match s.remoteCheckpoint with
  | none => none
  | some c => some { s with localCatalog := c }

/-- C8: invoking `restore_glacier_inventory` immediately after
`backup_glacier_inventory`, with no intervening mutation of the catalog,
leaves the local catalog identical to what it was at sync time. -/
theorem glacier_inventory_roundtrip (s : GlacierState) :
    (restoreInventory (backupInventory s)).map (fun s' => s'.localCatalog)
      = some s.localCatalog := rfl

end Bakthat
